import Mathlib

/-!
# Verification of `prody/utilities/misctools.py`

A shallow embedding of the two core functions of the module, `rangeString`
(integer-range compression) and `tabulate` (columnar text table rendering),
together with proofs of the specified properties.

Python exceptions are modelled with an explicit error type: every place where
the Python code can raise (`list[i]` out of range, `max()` of an empty
sequence, `textwrap.wrap` with a non-positive width, a reference to an
unbound loop variable) is modelled as an `Except PyErr` result.
-/

/-- The Python exceptions that the embedded code can raise. -/
inductive PyErr : Type
  | indexError
  | valueError
  | nameError
deriving DecidableEq

/-! ## Decimal rendering of integers (model of Python `str` on `int`) -/

/-- The character of a single decimal digit `n < 10`. -/
def digitChar (n : Nat) : Char := Char.ofNat (48 + n)

/-- Big-endian decimal digits of a natural number; the first argument is
fuel bounding the recursion depth (any fuel `> n` is enough). -/
def natDigitsF : Nat → Nat → List Char
  | 0, _ => []
  | fuel + 1, n =>
    if n < 10 then [digitChar n]
    else natDigitsF fuel (n / 10) ++ [digitChar (n % 10)]

/-- Big-endian decimal digits of a natural number. -/
def natDigits (n : Nat) : List Char := natDigitsF (n + 1) n

/-- Model of Python `str` on an integer, as a character list. -/
def intChars (i : Int) : List Char :=
  if i < 0 then '-' :: natDigits (-i).toNat else natDigits i.toNat

/-- Model of Python `str` on an integer. -/
def intStr (i : Int) : String := ⟨intChars i⟩

/-- Model of Python `sep.join(strings)`. -/
def joinSep (sep : String) : List String → String
  | [] => ""
  | [s] => s
  | s :: rest => s ++ sep ++ joinSep sep rest

/-! ## `numpy.unique`: sort ascending and remove duplicates -/

/-- Insert an integer into a strictly ascending list, keeping it strictly
ascending (no duplicate is created). -/
def insertUnique (i : Int) : List Int → List Int
  | [] => [i]
  | x :: xs =>
    if i < x then i :: x :: xs
    else if i = x then x :: xs
    else x :: insertUnique i xs

/-- Model of `numpy.unique` on an integer list: the strictly ascending list
of the distinct values. -/
def pyUnique (l : List Int) : List Int := l.foldr insertUnique []

/-! ## Run grouping (the accumulation loop of `rangeString`) -/

/-- The grouping loop of `rangeString`: `prev` is the previously processed
value, `cur` the run currently being extended (the source's `lint[-1]`),
`done` the finished runs.  A new run is started when the gap to the previous
value exceeds 1, otherwise the current run is extended. -/
def groupRunsGo (prev : Int) (cur : List Int) (done : List (List Int)) :
    List Int → List (List Int)
  | [] => done ++ [cur]
  | i :: rest =>
    if i - prev > 1 then groupRunsGo i [i] (done ++ [cur]) rest
    else groupRunsGo i (cur ++ [i]) done rest

/-- Decompose a list of integers into runs, as the loop of `rangeString`
does (the source initialises `lint = [[prev]]` with `prev = ints[0]`). -/
def groupRuns : List Int → List (List Int)
  | [] => []
  | x :: xs => groupRunsGo x [x] [] xs

/-- Rendering of one run, following the source's comprehension:
`str(l[0]) if len(l) == 1 else str(l[0]) + rng + str(l[-1] + exc)`. -/
def renderRun (rng : String) (exc : Int) (l : List Int) : String :=
  if l.length = 1 then intStr (l.headD 0)
  else intStr (l.headD 0) ++ rng ++ intStr (l.getLastD 0 + exc)

/-- The processed integer list of `rangeString`: deduplicate and sort via
`unique`, then, when `pos` is set and the minimum is negative, keep only the
values `> -1`. -/
def procInts (lint : List Int) (pos : Bool) : List Int :=
  match pyUnique lint with
  | [] => []
  | i0 :: rest =>
    if pos ∧ i0 < 0 then (i0 :: rest).filter (fun x => -1 < x) else i0 :: rest

/-- Embedding of `rangeString(lint, sep, rng, exc, pos)`.  An empty `unique`
result (empty input), or an empty list after the non-negative filter, makes
the source dereference `ints[0]`, an uncontrolled `IndexError`. -/
def rangeString (lint : List Int) (sep rng : String) (exc pos : Bool) :
    Except PyErr String :=
  match pyUnique lint with
  | [] => .error .indexError
  | i0 :: rest =>
    match (if pos ∧ i0 < 0 then (i0 :: rest).filter (fun x => -1 < x)
           else i0 :: rest) with
    | [] => .error .indexError
    | j0 :: rest2 =>
      .ok (joinSep sep ((groupRuns (j0 :: rest2)).map
            (renderRun rng (if exc then 1 else 0))))

/-! ## Python list primitives used by `tabulate` -/

/-- Model of Python list indexing `l[i]`: raises `IndexError` out of range. -/
def pyGet (l : List α) (i : Nat) : Except PyErr α :=
  match l.get? i with
  | some a => .ok a
  | none => .error .indexError

/-- Model of Python `max()` on a list: raises `ValueError` when empty. -/
def pyMax : List Int → Except PyErr Int
  | [] => .error .valueError
  | x :: xs => .ok (xs.foldl max x)

/-- Model of Python `enumerate`, starting at index `n`. -/
def enumFromN (n : Nat) : List α → List (Nat × α)
  | [] => []
  | a :: l => (n, a) :: enumFromN (n + 1) l

/-- The naturals `i, i+1, ..., i+n-1`. -/
def natsFrom (i : Nat) : Nat → List Nat
  | 0 => []
  | n + 1 => i :: natsFrom (i + 1) n

/-- Evaluate a fallible function left to right over a list, stopping at the
first error: the evaluation order of a Python comprehension. -/
def eMapM (f : α → Except PyErr β) : List α → Except PyErr (List β)
  | [] => .ok []
  | a :: l =>
    match f a with
    | .error e => .error e
    | .ok b =>
      match eMapM f l with
      | .error e => .error e
      | .ok bs => .ok (b :: bs)

/-- The common (minimum) length used by Python `zip`. -/
def minLen (c : List α) (cs : List (List α)) : Nat :=
  cs.foldl (fun m x => min m x.length) c.length

/-- Model of Python `zip(*ls)`: rows up to the shortest list, truncating the
longer ones. -/
def pyZipN [Inhabited α] (ls : List (List α)) : List (List α) :=
  match ls with
  | [] => []
  | c :: cs =>
    (natsFrom 0 (minLen c cs)).map (fun j => (c :: cs).map (fun col => col.getD j default))

/-! ## Model of the `textwrap` / `str` methods used by `tabulate` -/

/-- A run of `n` copies of one character, as a string (`c * n` in Python;
a non-positive count yields the empty string). -/
def charRun (c : Char) (n : Int) : String := ⟨List.replicate n.toNat c⟩

/-- Model of Python `str.ljust`: pad on the right with spaces up to `w`. -/
def pyLjust (s : String) (w : Int) : String :=
  ⟨s.data ++ List.replicate (w.toNat - s.data.length) ' '⟩

/-- Split a character list into whitespace-separated words, dropping empty
chunks; `cur` holds the current word reversed. -/
def splitWordsGo (cur : List Char) : List Char → List (List Char)
  | [] => if cur = [] then [] else [cur.reverse]
  | c :: rest =>
    if c.isWhitespace then
      if cur = [] then splitWordsGo [] rest else cur.reverse :: splitWordsGo [] rest
    else splitWordsGo (c :: cur) rest

/-- Break a word into pieces of at most `w` characters; the first argument is
fuel bounding the recursion depth (the word's length is enough). -/
def chunksF : Nat → Nat → List Char → List (List Char)
  | 0, _, l => [l]
  | _, 0, l => [l]
  | fuel + 1, w, l =>
    if l.length ≤ w then [l] else l.take w :: chunksF fuel w (l.drop w)

/-- Break a word into pieces of at most `w` characters (Python `textwrap`
breaks words longer than the width, `break_long_words=True`). -/
def chunks (w : Nat) (l : List Char) : List (List Char) := chunksF l.length w l

/-- Greedily pack words into lines of at most `w` characters, one space
between words; `cur` is the line under construction. -/
def packGo (w : Nat) (cur : List Char) : List (List Char) → List (List Char)
  | [] => [cur]
  | word :: rest =>
    if cur.length + 1 + word.length ≤ w then packGo w (cur ++ ' ' :: word) rest
    else cur :: packGo w word rest

/-- Model of Python `textwrap.wrap(text, w)`: a `ValueError` for a
non-positive width, otherwise greedy word wrapping of the
whitespace-separated words (long words broken at the width); wrapping text
with no words yields no lines at all. -/
def pyWrap (text : String) (w : Int) : Except PyErr (List String) :=
  if w ≤ 0 then .error .valueError
  else
    match (splitWordsGo [] text.data).flatMap (chunks w.toNat) with
    | [] => .ok []
    | x :: rest => .ok ((packGo w.toNat x rest).map (fun l => ⟨l⟩))

/-! ## Embedding of `tabulate` -/

/-- The two-element width list of `tabulate`:
`widths = [max(map(len, cols[0]))]` followed by
`widths.append(kwargs.get('width', 79) - sum(widths) - len(widths) * space)`;
`len(widths)` is 1 when the second width is appended. -/
def tabWidths (cols : List (List String)) (width : Int) (space : Nat) :
    Except PyErr (List Int) :=
  match pyGet cols 0 with
  | .error e => .error e
  | .ok col0 =>
    match pyMax (col0.map (fun s => (s.data.length : Int))) with
    | .error e => .error e
    | .ok w0 => .ok [w0, width - w0 - (space : Int)]

/-- The horizontal border: `'=' * width` for each width, joined by the
inter-column spacing. -/
def tabBars (widths : List Int) (space : Nat) : String :=
  joinSep (charRun ' ' (space : Int)) (widths.map (charRun '='))

/-- The per-column physical lines of one logical row (`rows` in the source):
column 0 is a single left-justified line, every further column is
word-wrapped to its width (out-of-range width access raises). -/
def rowCells (widths : List Int) (items : List String) :
    Except PyErr (List (List String)) :=
  eMapM (fun p =>
    if p.1 = 0 then
      match pyGet widths 0 with
      | .error e => .error e
      | .ok w => .ok [pyLjust p.2 w]
    else
      match pyGet widths p.1 with
      | .error e => .error e
      | .ok w => pyWrap p.2 w)
    (enumFromN 0 items)

/-- The padding step: when the maximum line count of the row exceeds 1,
every column is extended with blank width-padded lines up to that maximum. -/
def padRow (widths : List Int) (cells : List (List String)) :
    Except PyErr (List (List String)) :=
  match pyMax (cells.map (fun r => (r.length : Int))) with
  | .error e => .error e
  | .ok maxlen =>
    if maxlen > 1 then
      eMapM (fun p =>
        match pyGet widths p.1 with
        | .error e => .error e
        | .ok w => .ok (p.2 ++ List.replicate (maxlen - (p.2.length : Int)).toNat (charRun ' ' w)))
        (enumFromN 0 cells)
    else .ok cells

/-- The physical output lines of one logical row: build the per-column
lines, pad them, then emit them via `zip(*rows)` joined by the spacing. -/
def tabulateRow (widths : List Int) (sp : String) (items : List String) :
    Except PyErr (List String) :=
  match rowCells widths items with
  | .error e => .error e
  | .ok cells =>
    match padRow widths cells with
    | .error e => .error e
    | .ok padded => .ok ((pyZipN padded).map (joinSep sp))

/-- The list `lines` built by `tabulate`: the top border, the rows' physical
lines (with a border after row 0 when `header` is set), and a trailing
border only when the last row index `irow` exceeds 1 (at least three logical
rows).  With no rows at all, the source reads the unbound loop variable
`irow`: a `NameError`. -/
def tabulateLines (cols : List (List String)) (header : Bool) (width : Int)
    (space : Nat) : Except PyErr (List String) :=
  match tabWidths cols width space with
  | .error e => .error e
  | .ok widths =>
    let sp := charRun ' ' (space : Int)
    let bars := tabBars widths space
    let rowsItems := pyZipN cols
    match eMapM (fun p =>
        match tabulateRow widths sp p.2 with
        | .error e => .error e
        | .ok ls => .ok (if p.1 = 0 ∧ header then ls ++ [bars] else ls))
      (enumFromN 0 rowsItems) with
    | .error e => .error e
    | .ok body =>
      match rowsItems.length with
      | 0 => .error .nameError
      | n + 1 =>
        if n > 1 then .ok (bars :: body.flatten ++ [bars])
        else .ok (bars :: body.flatten)

/-- Embedding of `tabulate(*cols, **kwargs)`: the built lines joined by
newlines. -/
def tabulate (cols : List (List String)) (header : Bool) (width : Int)
    (space : Nat) : Except PyErr String :=
  match tabulateLines cols header width space with
  | .error e => .error e
  | .ok lines => .ok (joinSep "\n" lines)

/-!
## Parsing a range string back (the round-trip law)

The spec's round-trip law re-expands the output: split the string into runs
on the separator, then parse each run as either a bare integer or
`start ++ rng ++ end`, re-expanding with the exclusivity flag.  These
definitions formalise that reading; they are spec-side, not source-side.
-/

/-- Split a character list on every occurrence of a character (Python
`str.split(c)`); the result is always non-empty. -/
def splitOnChar (c : Char) : List Char → List (List Char)
  | [] => [[]]
  | x :: xs =>
    let r := splitOnChar c xs
    if x = c then [] :: r
    else (x :: r.headD []) :: r.tail

/-- Evaluate a partial function over a list, `none` as soon as one element
fails. -/
def oMapM (f : α → Option β) : List α → Option (List β)
  | [] => some []
  | a :: l =>
    match f a with
    | none => none
    | some b =>
      match oMapM f l with
      | none => none
      | some bs => some (b :: bs)

/-- The numeric value of a big-endian list of decimal digit characters. -/
def parseNatChars (l : List Char) : Nat :=
  l.foldl (fun a c => 10 * a + (c.toNat - 48)) 0

/-- Read a decimal integer (optional leading minus sign, then a maximal
non-empty digit sequence) off the front of a character list, returning the
value and the rest. -/
def readIntAt (l : List Char) : Option (Int × List Char) :=
  match l with
  | [] => none
  | c :: rest =>
    if c = '-' then
      let ds := rest.takeWhile Char.isDigit
      if ds = [] then none
      else some (-(parseNatChars ds : Int), rest.dropWhile Char.isDigit)
    else
      let ds := l.takeWhile Char.isDigit
      if ds = [] then none
      else some ((parseNatChars ds : Int), l.dropWhile Char.isDigit)

/-- Remove an expected leading character sequence, or fail. -/
def dropLead (lead l : List Char) : Option (List Char) :=
  if lead.isPrefixOf l then some (l.drop lead.length) else none

/-- The integers from `a` to `b` inclusive (just `[a]` when `b ≤ a`). -/
def rangeList (a b : Int) : List Int :=
  (natsFrom 0 ((b - a).toNat + 1)).map (fun k => a + Int.ofNat k)

/-- Parse one rendered run: a bare integer, or `start ++ rng ++ end`, the
latter re-expanded to `start .. end - exc` (undoing an exclusive end). -/
def parseRun (rng : List Char) (exc : Int) (piece : List Char) :
    Option (List Int) :=
  match readIntAt piece with
  | none => none
  | some (a, rest) =>
    if rest = [] then some [a]
    else
      match dropLead rng rest with
      | none => none
      | some rest2 =>
        match readIntAt rest2 with
        | none => none
        | some (b, rest3) =>
          if rest3 = [] then some (rangeList a (b - exc)) else none

/-- Parse a whole range string back into its integers: split the runs on the
separator, parse each run, concatenate the expansions. -/
def parseBack (sep : Char) (rng : List Char) (exc : Int) (s : List Char) :
    Option (List Int) :=
  match oMapM (parseRun rng exc) (splitOnChar sep s) with
  | none => none
  | some runs => some runs.flatten

/-- `joinSep` on character lists, for reasoning about `String.data`. -/
def joinSepChars (sep : List Char) : List (List Char) → List Char
  | [] => []
  | [s] => s
  | s :: rest => s ++ sep ++ joinSepChars sep rest

/-- A run: consecutive elements increase by exactly 1. -/
def oneStep (l : List Int) : Prop := List.Chain' (fun a b => b = a + 1) l

/-- Two runs separated by a genuine gap (difference at least 2 across the
boundary). -/
def gapped (r1 r2 : List Int) : Prop := r1.getLastD 0 + 1 < r2.headD 0

/-- The maximum rendered length of a column's cells (the value of
`max(map(len, cols[0]))` when the column is non-empty). -/
def maxLenI (col : List String) : Int :=
  match col.map (fun s => (s.data.length : Int)) with
  | [] => 0
  | x :: xs => xs.foldl max x

/-! ## Lemmas: decimal digits -/

theorem digitChar_isDigit {d : Nat} (hd : d < 10) : (digitChar d).isDigit = true := by
  interval_cases d <;> decide

theorem digitChar_val {d : Nat} (hd : d < 10) : (digitChar d).toNat - 48 = d := by
  interval_cases d <;> decide

theorem natDigitsF_all_digits {f n : Nat} (h : n < f) :
    ∀ c ∈ natDigitsF f n, c.isDigit = true := by
  induction f generalizing n with
  | zero => omega
  | succ f ih =>
    intro c hc
    rw [natDigitsF] at hc
    by_cases h10 : n < 10
    · simp only [if_pos h10, List.mem_singleton] at hc
      exact hc ▸ digitChar_isDigit h10
    · simp only [if_neg h10, List.mem_append, List.mem_singleton] at hc
      rcases hc with hc | hc
      · exact ih (by omega) c hc
      · exact hc ▸ digitChar_isDigit (Nat.mod_lt n (by omega))

theorem natDigitsF_ne_nil {f n : Nat} (h : n < f) : natDigitsF f n ≠ [] := by
  cases f with
  | zero => omega
  | succ f =>
    rw [natDigitsF]
    by_cases h10 : n < 10
    · simp [if_pos h10]
    · simp [if_neg h10]

theorem foldl_parse_natDigitsF {f n : Nat} (h : n < f) (a : Nat) :
    List.foldl (fun a c => 10 * a + (c.toNat - 48)) a (natDigitsF f n)
      = a * 10 ^ (natDigitsF f n).length + n := by
  induction f generalizing n a with
  | zero => omega
  | succ f ih =>
    rw [natDigitsF]
    by_cases h10 : n < 10
    · simp only [if_pos h10, List.foldl_cons, List.foldl_nil, List.length_singleton]
      rw [digitChar_val h10, pow_one]
      ring
    · simp only [if_neg h10, List.foldl_append, List.foldl_cons, List.foldl_nil,
        List.length_append, List.length_singleton]
      have hlt : n / 10 < f := by
        have := Nat.div_lt_self (by omega : 0 < n) (by omega : 1 < 10)
        omega
      rw [ih hlt a, digitChar_val (Nat.mod_lt n (by omega))]
      have hmod := Nat.div_add_mod n 10
      set L := (natDigitsF f (n / 10)).length
      have h2 : a * 10 ^ (L + 1) = 10 * (a * 10 ^ L) := by ring
      omega

theorem parseNat_natDigits (n : Nat) : parseNatChars (natDigits n) = n := by
  have := foldl_parse_natDigitsF (Nat.lt_succ_self n) 0
  simpa [parseNatChars, natDigits] using this

theorem natDigits_all_digits (n : Nat) : ∀ c ∈ natDigits n, c.isDigit = true :=
  natDigitsF_all_digits (Nat.lt_succ_self n)

theorem natDigits_ne_nil (n : Nat) : natDigits n ≠ [] :=
  natDigitsF_ne_nil (Nat.lt_succ_self n)

theorem mem_intChars {c : Char} {i : Int} (hc : c ∈ intChars i) :
    c.isDigit = true ∨ c = '-' := by
  rw [intChars] at hc
  by_cases hi : i < 0
  · simp only [if_pos hi, List.mem_cons] at hc
    rcases hc with hc | hc
    · right; exact hc
    · left; exact natDigits_all_digits _ c hc
  · simp only [if_neg hi] at hc
    left; exact natDigits_all_digits _ c hc

/-! ## Lemmas: reading an integer back off a rendered one -/

theorem takeWhile_append_all {p : α → Bool} {l1 l2 : List α}
    (h1 : ∀ a ∈ l1, p a = true) (h2 : ∀ c, l2.head? = some c → p c = false) :
    (l1 ++ l2).takeWhile p = l1 := by
  induction l1 with
  | nil =>
    simp only [List.nil_append]
    cases l2 with
    | nil => rfl
    | cons c l2' => simp [List.takeWhile_cons, h2 c rfl]
  | cons a l1 ih =>
    simp only [List.cons_append, List.takeWhile_cons, h1 a (by simp), if_true]
    rw [ih (fun a ha => h1 a (by simp [ha]))]

theorem dropWhile_append_all {p : α → Bool} {l1 l2 : List α}
    (h1 : ∀ a ∈ l1, p a = true) (h2 : ∀ c, l2.head? = some c → p c = false) :
    (l1 ++ l2).dropWhile p = l2 := by
  induction l1 with
  | nil =>
    simp only [List.nil_append]
    cases l2 with
    | nil => rfl
    | cons c l2' => simp [List.dropWhile_cons, h2 c rfl]
  | cons a l1 ih =>
    simp only [List.cons_append, List.dropWhile_cons, h1 a (by simp), if_true]
    exact ih (fun a ha => h1 a (by simp [ha]))

theorem head_natDigits_not_minus {n : Nat} {c : Char} {l : List Char}
    (h : natDigits n = c :: l) : ¬ c = '-' := by
  intro hcm
  have hd : c.isDigit = true := natDigits_all_digits n c (by rw [h]; simp)
  rw [hcm] at hd
  exact absurd hd (by decide)

theorem readIntAt_intChars (i : Int) (rest : List Char)
    (hrest : ∀ c, rest.head? = some c → c.isDigit = false) :
    readIntAt (intChars i ++ rest) = some (i, rest) := by
  by_cases hi : i < 0
  · rw [intChars, if_pos hi]
    obtain ⟨c, l, hcl⟩ : ∃ c l, natDigits (-i).toNat = c :: l := by
      cases h : natDigits (-i).toNat with
      | nil => exact absurd h (natDigits_ne_nil _)
      | cons c l => exact ⟨c, l, rfl⟩
    rw [List.cons_append, readIntAt]
    simp only [if_pos rfl]
    rw [takeWhile_append_all (natDigits_all_digits _) hrest,
      dropWhile_append_all (natDigits_all_digits _) hrest]
    rw [if_neg (natDigits_ne_nil _), parseNat_natDigits]
    have htn : ((-i).toNat : Int) = -i := Int.toNat_of_nonneg (by omega)
    rw [htn]
    simp
  · rw [intChars, if_neg hi]
    obtain ⟨c, l, hcl⟩ : ∃ c l, natDigits i.toNat = c :: l := by
      cases h : natDigits i.toNat with
      | nil => exact absurd h (natDigits_ne_nil _)
      | cons c l => exact ⟨c, l, rfl⟩
    rw [hcl, List.cons_append, readIntAt]
    rw [if_neg (head_natDigits_not_minus hcl)]
    rw [← List.cons_append, ← hcl]
    rw [takeWhile_append_all (natDigits_all_digits _) hrest,
      dropWhile_append_all (natDigits_all_digits _) hrest]
    rw [if_neg (natDigits_ne_nil _), parseNat_natDigits]
    have htn : (i.toNat : Int) = i := Int.toNat_of_nonneg (by omega)
    rw [htn]

theorem isPrefixOf_append_self (l1 l2 : List Char) :
    l1.isPrefixOf (l1 ++ l2) = true := by
  induction l1 with
  | nil => simp [List.isPrefixOf]
  | cons a t ih => simp [List.isPrefixOf, ih]

theorem dropLead_append (lead l : List Char) : dropLead lead (lead ++ l) = some l := by
  rw [dropLead, if_pos (isPrefixOf_append_self lead l)]
  rw [List.drop_left]

/-! ## Lemmas: splitting on the separator undoes joining -/

theorem joinSep_data (sep : String) (l : List String) :
    (joinSep sep l).data = joinSepChars sep.data (l.map String.data) := by
  induction l with
  | nil => rfl
  | cons s rest ih =>
    cases rest with
    | nil => rfl
    | cons t rest' =>
      show (s ++ sep ++ joinSep sep (t :: rest')).data = _
      rw [String.data_append, String.data_append, ih]
      rfl

theorem splitOnChar_of_not_mem {c : Char} {piece : List Char} (h : c ∉ piece) :
    splitOnChar c piece = [piece] := by
  induction piece with
  | nil => rfl
  | cons x xs ih =>
    rw [splitOnChar]
    have hxc : ¬ x = c := fun hx => h (by simp [hx])
    simp only [if_neg hxc]
    rw [ih (fun hm => h (List.mem_cons_of_mem x hm))]
    rfl

theorem splitOnChar_append {c : Char} {p rest : List Char} (h : c ∉ p) :
    splitOnChar c (p ++ c :: rest) = p :: splitOnChar c rest := by
  induction p with
  | nil =>
    rw [List.nil_append, splitOnChar]
    simp
  | cons x xs ih =>
    have hxc : ¬ x = c := fun hx => h (by simp [hx])
    rw [List.cons_append, splitOnChar]
    simp only [if_neg hxc]
    rw [ih (fun hm => h (List.mem_cons_of_mem x hm))]
    rfl

theorem splitOnChar_joinSepChars {c : Char} {pieces : List (List Char)}
    (hne : pieces ≠ []) (hfree : ∀ p ∈ pieces, c ∉ p) :
    splitOnChar c (joinSepChars [c] pieces) = pieces := by
  induction pieces with
  | nil => exact absurd rfl hne
  | cons p rest ih =>
    cases rest with
    | nil => exact splitOnChar_of_not_mem (hfree p (by simp))
    | cons q rest' =>
      show splitOnChar c (p ++ [c] ++ joinSepChars [c] (q :: rest')) = _
      rw [List.append_assoc, List.singleton_append,
        splitOnChar_append (hfree p (by simp))]
      rw [ih (by simp) (fun x hx => hfree x (List.mem_cons_of_mem p hx))]

/-! ## Lemmas: `oMapM` -/

theorem oMapM_map_undo {f : β → Option α} {g : α → β} {l : List α}
    (h : ∀ x ∈ l, f (g x) = some x) : oMapM f (l.map g) = some l := by
  induction l with
  | nil => rfl
  | cons a l ih =>
    rw [List.map_cons, oMapM, h a (by simp), ih (fun x hx => h x (by simp [hx]))]

/-! ## Runs: contiguity, maximality, expansion -/

theorem natsFrom_length (i n : Nat) : (natsFrom i n).length = n := by
  induction n generalizing i with
  | zero => rfl
  | succ n ih => simp [natsFrom, ih]

theorem natsFrom_shift (i n : Nat) :
    natsFrom (i + 1) n = (natsFrom i n).map (· + 1) := by
  induction n generalizing i with
  | zero => rfl
  | succ n ih => simp [natsFrom, ih]

theorem rangeList_self (a : Int) : rangeList a a = [a] := by
  simp [rangeList, natsFrom]

theorem rangeList_cons {a b : Int} (h : a < b) :
    rangeList a b = a :: rangeList (a + 1) b := by
  rw [rangeList, rangeList]
  have h1 : (b - a).toNat + 1 = ((b - (a + 1)).toNat + 1) + 1 := by omega
  rw [h1, natsFrom, natsFrom_shift, List.map_cons, List.map_map]
  have hhead : a + Int.ofNat 0 = a := by simp
  rw [hhead]
  congr 1
  apply List.map_congr_left
  intro k _
  simp only [Function.comp_apply, Int.ofNat_eq_natCast]
  push_cast
  ring

theorem oneStep_head_le_getLastD {a : Int} {l : List Int}
    (h : oneStep (a :: l)) : a ≤ (a :: l).getLastD 0 := by
  induction l generalizing a with
  | nil => simp
  | cons b l ih =>
    rw [oneStep, List.chain'_cons] at h
    have hb := ih h.2
    simp only [List.getLastD_cons] at hb ⊢
    have h1 := h.1
    omega

theorem head?_append_left {l1 l2 : List α} (h : l1 ≠ []) :
    (l1 ++ l2).head? = l1.head? := by
  cases l1 with
  | nil => exact absurd rfl h
  | cons a l => rfl

theorem oneStep_eq_rangeList {a : Int} {l : List Int} (h : oneStep (a :: l)) :
    a :: l = rangeList a ((a :: l).getLastD 0) := by
  induction l generalizing a with
  | nil => simp [rangeList_self]
  | cons b l ih =>
    rw [oneStep, List.chain'_cons] at h
    have hb := ih h.2
    have hle : b ≤ (b :: l).getLastD 0 := oneStep_head_le_getLastD h.2
    have hlast : ((a :: b :: l).getLastD 0) = ((b :: l).getLastD 0) := by
      simp only [List.getLastD_cons]
    rw [hlast]
    have hab : a < (b :: l).getLastD 0 := by
      have h1 := h.1
      omega
    rw [rangeList_cons hab, ← h.1, ← hb]

theorem parseRun_renderRun {rng : String} {exc : Int} {r : List Int}
    (hne : r ≠ []) (hstep : oneStep r) (hrng : rng.data ≠ [])
    (hrH : ∀ c, rng.data.head? = some c → c.isDigit = false) :
    parseRun rng.data exc (renderRun rng exc r).data = some r := by
  obtain ⟨a, l, rfl⟩ : ∃ a l, r = a :: l := by
    cases r with
    | nil => exact absurd rfl hne
    | cons a l => exact ⟨a, l, rfl⟩
  rw [renderRun]
  by_cases hlen : (a :: l).length = 1
  · have hl : l = [] := by
      cases l with
      | nil => rfl
      | cons b l' => simp at hlen
    subst hl
    rw [if_pos hlen]
    show parseRun rng.data exc (intChars a) = some [a]
    have h1 : readIntAt (intChars a) = some (a, []) := by
      have h := readIntAt_intChars a [] (fun c hc => by simp at hc)
      rwa [List.append_nil] at h
    simp [parseRun, h1]
  · rw [if_neg hlen]
    set b := (a :: l).getLastD 0 + exc with hbdef
    have hdata : (intStr ((a :: l).headD 0) ++ rng ++ intStr b).data
        = intChars a ++ (rng.data ++ intChars b) := by
      rw [String.data_append, String.data_append, List.append_assoc]
      rfl
    rw [hdata]
    have hrestH : ∀ c, (rng.data ++ intChars b).head? = some c → c.isDigit = false := by
      intro c hc
      rw [head?_append_left hrng] at hc
      exact hrH c hc
    have h1 : readIntAt (intChars a ++ (rng.data ++ intChars b))
        = some (a, rng.data ++ intChars b) := readIntAt_intChars a _ hrestH
    have hrne : rng.data ++ intChars b ≠ [] := by
      intro h
      exact hrng (List.append_eq_nil.mp h).1
    have h2 : readIntAt (intChars b) = some (b, []) := by
      have h := readIntAt_intChars b [] (fun c hc => by simp at hc)
      rwa [List.append_nil] at h
    simp only [parseRun, h1, hrne, dropLead_append, h2, if_false, if_neg hrne]
    have hbe : b - exc = (a :: l).getLastD 0 := by omega
    rw [hbe, ← oneStep_eq_rangeList hstep]
    simp

/-! ## Lemmas: the grouping loop -/

theorem groupRunsGo_flatten (l : List Int) :
    ∀ (prev : Int) (cur : List Int) (done : List (List Int)),
      (groupRunsGo prev cur done l).flatten = done.flatten ++ cur ++ l := by
  induction l with
  | nil => intro prev cur done; simp [groupRunsGo]
  | cons i rest ih =>
    intro prev cur done
    rw [groupRunsGo]
    by_cases hgap : i - prev > 1
    · rw [if_pos hgap, ih]
      simp
    · rw [if_neg hgap, ih]
      simp

theorem groupRunsGo_ne_nil (l : List Int) :
    ∀ (prev : Int) (cur : List Int) (done : List (List Int)),
      groupRunsGo prev cur done l ≠ [] := by
  induction l with
  | nil => intro prev cur done; simp [groupRunsGo]
  | cons i rest ih =>
    intro prev cur done
    rw [groupRunsGo]
    by_cases hgap : i - prev > 1
    · rw [if_pos hgap]; exact ih _ _ _
    · rw [if_neg hgap]; exact ih _ _ _

theorem groupRunsGo_invariant (l : List Int) :
    ∀ (prev : Int) (cur : List Int) (done : List (List Int)),
      List.Chain' (· < ·) (prev :: l) →
      oneStep cur → cur ≠ [] → cur.getLastD 0 = prev →
      (∀ r ∈ done, oneStep r ∧ r ≠ []) →
      List.Chain' gapped (done ++ [cur]) →
      (∀ r ∈ groupRunsGo prev cur done l, oneStep r ∧ r ≠ []) ∧
        List.Chain' gapped (groupRunsGo prev cur done l) := by
  induction l with
  | nil =>
    intro prev cur done _ hcur hcne _ hdone hchain
    rw [groupRunsGo]
    refine ⟨?_, hchain⟩
    intro r hr
    rcases List.mem_append.mp hr with h | h
    · exact hdone r h
    · rw [List.mem_singleton] at h
      exact ⟨h ▸ hcur, h ▸ hcne⟩
  | cons i rest ih =>
    intro prev cur done hasc hcur hcne hlast hdone hchain
    rw [List.chain'_cons] at hasc
    rw [groupRunsGo]
    by_cases hgap : i - prev > 1
    · rw [if_pos hgap]
      refine ih i [i] (done ++ [cur]) hasc.2 ?_ (by simp) (by simp) ?_ ?_
      · exact List.chain'_singleton i
      · intro r hr
        rcases List.mem_append.mp hr with h | h
        · exact hdone r h
        · rw [List.mem_singleton] at h
          exact ⟨h ▸ hcur, h ▸ hcne⟩
      · rw [List.chain'_append]
        refine ⟨hchain, List.chain'_singleton _, ?_⟩
        intro x hx y hy
        rw [List.getLast?_concat] at hx
        simp only [List.head?_cons, Option.mem_def, Option.some_inj] at hx hy
        subst hx; subst hy
        rw [gapped, hlast]
        simp
        omega
    · rw [if_neg hgap]
      have histep : i = prev + 1 := by
        have := hasc.1
        omega
      refine ih i (cur ++ [i]) done hasc.2 ?_ (by simp) (by simp) hdone ?_
      · rw [oneStep, List.chain'_append]
        refine ⟨hcur, List.chain'_singleton _, ?_⟩
        intro x hx y hy
        simp only [List.head?_cons, Option.mem_def, Option.some_inj] at hy
        subst hy
        have hxl : x = cur.getLastD 0 := by
          cases cur with
          | nil => exact absurd rfl hcne
          | cons c cs =>
            rw [List.getLast?_eq_getLast _ (by simp)] at hx
            simp only [Option.mem_def, Option.some_inj] at hx
            rw [← hx, List.getLastD_eq_getLast?, List.getLast?_eq_getLast _ (by simp)]
            rfl
        rw [hxl, hlast]
        omega
      · -- the chain of gaps is preserved when the current run grows
        rw [List.chain'_append] at hchain ⊢
        refine ⟨hchain.1, List.chain'_singleton _, ?_⟩
        intro x hx y hy
        simp only [List.head?_cons, Option.mem_def, Option.some_inj] at hy
        subst hy
        have := hchain.2.2 x hx cur (by simp)
        rw [gapped] at this ⊢
        have hh : (cur ++ [i]).headD 0 = cur.headD 0 := by
          cases cur with
          | nil => exact absurd rfl hcne
          | cons c cs => rfl
        rw [hh]
        exact this

theorem groupRuns_spec {l : List Int} (hne : l ≠ [])
    (hasc : List.Chain' (· < ·) l) :
    (groupRuns l).flatten = l ∧ groupRuns l ≠ [] ∧
      (∀ r ∈ groupRuns l, oneStep r ∧ r ≠ []) ∧
      List.Chain' gapped (groupRuns l) := by
  obtain ⟨x, xs, rfl⟩ : ∃ x xs, l = x :: xs := by
    cases l with
    | nil => exact absurd rfl hne
    | cons x xs => exact ⟨x, xs, rfl⟩
  rw [groupRuns]
  have hinv := groupRunsGo_invariant xs x [x] [] hasc
    (List.chain'_singleton x) (by simp) (by simp) (by simp)
    (by simp [List.chain'_singleton])
  refine ⟨?_, groupRunsGo_ne_nil _ _ _ _, hinv.1, hinv.2⟩
  rw [groupRunsGo_flatten]
  simp

/-! ## Lemmas: `pyUnique` -/

theorem mem_insertUnique {x i : Int} {l : List Int} :
    x ∈ insertUnique i l ↔ x = i ∨ x ∈ l := by
  induction l with
  | nil => simp [insertUnique]
  | cons y ys ih =>
    rw [insertUnique]
    by_cases h1 : i < y
    · rw [if_pos h1]; simp
    · rw [if_neg h1]
      by_cases h2 : i = y
      · rw [if_pos h2]
        subst h2
        simp only [List.mem_cons]
        constructor
        · intro h; exact Or.inr h
        · rintro (h | h)
          · exact Or.inl (by rw [h])
          · exact h
      · rw [if_neg h2]
        simp only [List.mem_cons, ih]
        tauto

theorem pairwise_insertUnique {i : Int} {l : List Int}
    (h : List.Pairwise (· < ·) l) :
    List.Pairwise (· < ·) (insertUnique i l) := by
  induction l with
  | nil => simp [insertUnique]
  | cons y ys ih =>
    rw [List.pairwise_cons] at h
    rw [insertUnique]
    by_cases h1 : i < y
    · rw [if_pos h1]
      rw [List.pairwise_cons]
      refine ⟨?_, List.pairwise_cons.mpr h⟩
      intro z hz
      rcases List.mem_cons.mp hz with hz | hz
      · rw [hz]; exact h1
      · exact lt_trans h1 (h.1 z hz)
    · rw [if_neg h1]
      by_cases h2 : i = y
      · rw [if_pos h2]; exact List.pairwise_cons.mpr h
      · rw [if_neg h2]
        rw [List.pairwise_cons]
        refine ⟨?_, ih h.2⟩
        intro z hz
        rcases mem_insertUnique.mp hz with hz | hz
        · rw [hz]; omega
        · exact h.1 z hz

theorem pairwise_pyUnique (l : List Int) : List.Pairwise (· < ·) (pyUnique l) := by
  induction l with
  | nil => simp [pyUnique]
  | cons x xs ih => exact pairwise_insertUnique ih

theorem mem_pyUnique {x : Int} {l : List Int} : x ∈ pyUnique l ↔ x ∈ l := by
  induction l with
  | nil => simp [pyUnique]
  | cons y ys ih =>
    show x ∈ insertUnique y (pyUnique ys) ↔ _
    rw [mem_insertUnique, ih]
    simp

theorem sorted_eq_of_mem_iff : ∀ {l1 l2 : List Int},
    List.Pairwise (· < ·) l1 → List.Pairwise (· < ·) l2 →
    (∀ x, x ∈ l1 ↔ x ∈ l2) → l1 = l2 := by
  intro l1
  induction l1 with
  | nil =>
    intro l2 _ _ hmem
    cases l2 with
    | nil => rfl
    | cons b t2 => exact absurd ((hmem b).mpr (by simp)) (by simp)
  | cons a t1 ih =>
    intro l2 h1 h2 hmem
    cases l2 with
    | nil => exact absurd ((hmem a).mp (by simp)) (by simp)
    | cons b t2 =>
      rw [List.pairwise_cons] at h1 h2
      have hab : a = b := by
        by_contra hne
        have ha2 : a ∈ b :: t2 := (hmem a).mp (by simp)
        have hb1 : b ∈ a :: t1 := (hmem b).mpr (by simp)
        rcases List.mem_cons.mp ha2 with h | h
        · exact hne h
        · have hba : b < a := h2.1 a h
          rcases List.mem_cons.mp hb1 with h' | h'
          · exact hne h'.symm
          · exact absurd (h1.1 b h') (by omega)
      subst hab
      have htails : ∀ x, x ∈ t1 ↔ x ∈ t2 := by
        intro x
        constructor
        · intro hx
          have hax : a < x := h1.1 x hx
          rcases List.mem_cons.mp ((hmem x).mp (List.mem_cons_of_mem a hx)) with h | h
          · omega
          · exact h
        · intro hx
          have hax : a < x := h2.1 x hx
          rcases List.mem_cons.mp ((hmem x).mpr (List.mem_cons_of_mem a hx)) with h | h
          · omega
          · exact h
      rw [ih h1.2 h2.2 htails]

/-! ## Lemmas: `procInts` and `rangeString` -/

theorem procInts_true (lint : List Int) :
    procInts lint true = (pyUnique lint).filter (fun x => -1 < x) := by
  cases hu : pyUnique lint with
  | nil => simp [procInts, hu]
  | cons i0 rest =>
    by_cases hc : i0 < 0
    · simp [procInts, hu, hc]
    · have hpw := pairwise_pyUnique lint
      rw [hu, List.pairwise_cons] at hpw
      simp only [procInts, hu, hc, and_false, if_false]
      symm
      rw [List.filter_eq_self]
      intro x hx
      rcases List.mem_cons.mp hx with h | h
      · subst h; simp; omega
      · have := hpw.1 x h
        simp
        omega

theorem procInts_false (lint : List Int) : procInts lint false = pyUnique lint := by
  cases hu : pyUnique lint with
  | nil => simp [procInts, hu]
  | cons i0 rest => simp [procInts, hu]

theorem pairwise_procInts (lint : List Int) (pos : Bool) :
    List.Pairwise (· < ·) (procInts lint pos) := by
  cases pos with
  | true =>
    rw [procInts_true]
    exact (pairwise_pyUnique lint).sublist (List.filter_sublist _)
  | false => rw [procInts_false]; exact pairwise_pyUnique lint

theorem mem_procInts (lint : List Int) (pos : Bool) (x : Int) :
    x ∈ procInts lint pos ↔ x ∈ lint ∧ (pos = true → -1 < x) := by
  cases pos with
  | true =>
    rw [procInts_true, List.mem_filter, mem_pyUnique]
    simp
  | false =>
    rw [procInts_false, mem_pyUnique]
    simp

theorem rangeString_eq (lint : List Int) (sep rng : String) (exc pos : Bool) :
    rangeString lint sep rng exc pos = match procInts lint pos with
      | [] => .error .indexError
      | j0 :: rest2 => .ok (joinSep sep ((groupRuns (j0 :: rest2)).map
          (renderRun rng (if exc then 1 else 0)))) := by
  unfold rangeString procInts
  cases hu : pyUnique lint with
  | nil => rfl
  | cons i0 rest => rfl

theorem rangeString_ok_iff {lint : List Int} {sep rng : String} {exc pos : Bool}
    {out : String} :
    rangeString lint sep rng exc pos = .ok out ↔
      procInts lint pos ≠ [] ∧ out = joinSep sep ((groupRuns (procInts lint pos)).map
        (renderRun rng (if exc then 1 else 0))) := by
  rw [rangeString_eq]
  cases hp : procInts lint pos with
  | nil => simp
  | cons j0 rest2 =>
    simp only [ne_eq, reduceCtorEq, not_false_eq_true, true_and]
    constructor
    · intro h
      injection h with h
      exact h.symm
    · intro h
      rw [h]

theorem headD_isDigit_false {l : List Char} (h : (l.headD ' ').isDigit = false) :
    ∀ c, l.head? = some c → c.isDigit = false := by
  intro c hc
  cases l with
  | nil => simp at hc
  | cons d t =>
    simp only [List.head?_cons, Option.some_inj] at hc
    subst hc
    simpa using h

/-- Characters of a rendered run: decimal digits, the minus sign, or
characters of the range symbol. -/
theorem mem_renderRun_data {c : Char} {rng : String} {exc : Int} {r : List Int}
    (hc : c ∈ (renderRun rng exc r).data) :
    c.isDigit = true ∨ c = '-' ∨ c ∈ rng.data := by
  rw [renderRun] at hc
  by_cases hlen : r.length = 1
  · rw [if_pos hlen] at hc
    rcases mem_intChars hc with h | h
    · exact Or.inl h
    · exact Or.inr (Or.inl h)
  · rw [if_neg hlen, String.data_append, String.data_append] at hc
    rcases List.mem_append.mp hc with h | h
    · rcases List.mem_append.mp h with h2 | h2
      · rcases mem_intChars h2 with h3 | h3
        · exact Or.inl h3
        · exact Or.inr (Or.inl h3)
      · exact Or.inr (Or.inr h2)
    · rcases mem_intChars h with h3 | h3
      · exact Or.inl h3
      · exact Or.inr (Or.inl h3)

/-! ## Claims about `rangeString` -/

/-- C2: `rangeString` on `[1,2,3,4,10,15,16,17]` returns
`"1 to 4 10 15 to 17"` with the default options, `"1-4,10,15-17"` with
separator `","` and range symbol `"-"`, and `"1:5,10,15:18"` with separator
`","`, range symbol `":"` and an exclusive end. -/
theorem c2_rangeString_doctest :
    rangeString [1, 2, 3, 4, 10, 15, 16, 17] " " " to " false true
        = .ok "1 to 4 10 15 to 17"
    ∧ rangeString [1, 2, 3, 4, 10, 15, 16, 17] "," "-" false true
        = .ok "1-4,10,15-17"
    ∧ rangeString [1, 2, 3, 4, 10, 15, 16, 17] "," ":" true true
        = .ok "1:5,10,15:18" :=
  ⟨rfl, rfl, rfl⟩

/-- C3 (the code evaluated at the failing inputs): on an empty collection,
and on a collection left empty by the non-negative filter, `rangeString`
raises an uncontrolled `IndexError` at `ints[0]` — not a well-defined
empty-input error as the specification requires. -/
theorem c3_rangeString_empty_fault :
    (∀ (sep rng : String) (exc pos : Bool),
      rangeString [] sep rng exc pos = .error .indexError)
    ∧ (∀ (lint : List Int) (sep rng : String) (exc : Bool),
        (∀ x ∈ lint, x < 0) →
        rangeString lint sep rng exc true = .error .indexError) := by
  constructor
  · intro sep rng exc pos
    rfl
  · intro lint sep rng exc hneg
    rw [rangeString_eq]
    have hpe : procInts lint true = [] := by
      rw [procInts_true]
      rw [List.filter_eq_nil_iff]
      intro x hx
      have := hneg x (mem_pyUnique.mp hx)
      simp
      omega
    rw [hpe]

theorem c3_witness :
    rangeString [] " " " to " false true = .error .indexError
    ∧ rangeString [-3, -1] " " " to " false true = .error .indexError :=
  ⟨c3_rangeString_empty_fault.1 " " " to " false true,
    c3_rangeString_empty_fault.2 [-3, -1] " " " to " false (by decide)⟩

/-- C8: every successful `rangeString` output is the rendering of a run
decomposition of the processed integers in which every run is a contiguous
step-1 sequence and adjacent runs are separated by a gap of at least 2
(each run is maximal). -/
theorem c8_runs_maximal (lint : List Int) (sep rng : String) (exc pos : Bool)
    (out : String) (hok : rangeString lint sep rng exc pos = .ok out) :
    ∃ runs : List (List Int),
      out = joinSep sep (runs.map (renderRun rng (if exc then 1 else 0)))
      ∧ runs.flatten = procInts lint pos
      ∧ (∀ r ∈ runs, r ≠ [] ∧ oneStep r)
      ∧ List.Chain' gapped runs := by
  obtain ⟨hne, hout⟩ := rangeString_ok_iff.mp hok
  have hasc : List.Chain' (· < ·) (procInts lint pos) :=
    List.chain'_iff_pairwise.mpr (pairwise_procInts lint pos)
  obtain ⟨hflat, _, hprops, hchain⟩ := groupRuns_spec hne hasc
  exact ⟨groupRuns (procInts lint pos), hout, hflat,
    fun r hr => ⟨(hprops r hr).2, (hprops r hr).1⟩, hchain⟩

theorem c8_witness :
    ∃ runs : List (List Int),
      "1 to 2 5" = joinSep " " (runs.map (renderRun " to " 0))
      ∧ runs.flatten = procInts [1, 2, 5] true
      ∧ (∀ r ∈ runs, r ≠ [] ∧ oneStep r)
      ∧ List.Chain' gapped runs :=
  c8_runs_maximal [1, 2, 5] " " " to " false true "1 to 2 5" rfl

/-- C9: with the non-negative filter active, `rangeString` behaves exactly
as on the sub-collection of non-negative values (and succeeds whenever some
value is non-negative); in particular on `[-3,-1,0,1,2]` it returns
`"0 to 2"`. -/
theorem c9_nonneg_filter :
    (∀ (lint : List Int) (sep rng : String) (exc : Bool),
      (∃ x ∈ lint, 0 ≤ x) →
      rangeString lint sep rng exc true
          = rangeString (lint.filter (fun x => 0 ≤ x)) sep rng exc true
        ∧ ∃ out, rangeString lint sep rng exc true = .ok out)
    ∧ rangeString [-3, -1, 0, 1, 2] " " " to " false true = .ok "0 to 2" := by
  constructor
  · intro lint sep rng exc hex
    have hpe : procInts (lint.filter (fun x => 0 ≤ x)) true = procInts lint true := by
      rw [procInts_true, procInts_true]
      apply sorted_eq_of_mem_iff
      · exact (pairwise_pyUnique _).sublist (List.filter_sublist _)
      · exact (pairwise_pyUnique _).sublist (List.filter_sublist _)
      · intro x
        rw [List.mem_filter, List.mem_filter, mem_pyUnique, mem_pyUnique,
          List.mem_filter]
        simp only [decide_eq_true_eq]
        constructor
        · rintro ⟨⟨hm, _⟩, h1⟩
          exact ⟨hm, h1⟩
        · rintro ⟨hm, h1⟩
          exact ⟨⟨hm, by omega⟩, h1⟩
    constructor
    · rw [rangeString_eq, rangeString_eq, hpe]
    · have hmem : ∃ x, x ∈ procInts lint true := by
        obtain ⟨x, hx, hx0⟩ := hex
        exact ⟨x, (mem_procInts lint true x).mpr ⟨hx, fun _ => by omega⟩⟩
      rw [rangeString_eq]
      cases hp : procInts lint true with
      | nil =>
        obtain ⟨x, hx⟩ := hmem
        rw [hp] at hx
        simp at hx
      | cons j0 rest2 => exact ⟨_, rfl⟩
  · rfl

theorem c9_witness :
    rangeString [-3, -1, 0, 1, 2] " " " to " false true
        = rangeString ([-3, -1, 0, 1, 2].filter (fun x => 0 ≤ x)) " " " to " false true
    ∧ ∃ out, rangeString [-3, -1, 0, 1, 2] " " " to " false true = .ok out :=
  (c9_nonneg_filter.1 [-3, -1, 0, 1, 2] " " " to " false (by decide))

/-- C1 counterexample: with the default configuration (separator `" "`,
range symbol `" to "`), the output for `[1, 2]` is `"1 to 2"`, and splitting
that output on the configured separator and re-expanding the runs does not
reconstruct `{1, 2}` — the parse fails, because the range symbol contains
the separator. -/
theorem c1_counterexample :
    rangeString [1, 2] " " " to " false true = .ok "1 to 2"
    ∧ parseBack ' ' " to ".data 0 "1 to 2".data = none :=
  ⟨rfl, rfl⟩

/-- C1 (amended): the round-trip law holds whenever the separator is a
single character that is neither a digit, nor the minus sign, nor a
character of the range symbol, and the range symbol is non-empty and does
not start with a digit: parsing the output back yields exactly the
deduplicated, ascending-sorted, filtered list of the input. -/
theorem c1_roundtrip_amended (lint : List Int) (sepC : Char) (rng : String)
    (exc pos : Bool) (out : String)
    (hok : rangeString lint ⟨[sepC]⟩ rng exc pos = .ok out)
    (hsd : sepC.isDigit = false) (hsm : sepC ≠ '-') (hsr : sepC ∉ rng.data)
    (hrne : rng.data ≠ []) (hrH : ((rng.data.headD ' ').isDigit) = false) :
    parseBack sepC rng.data (if exc then 1 else 0) out.data
        = some (procInts lint pos)
    ∧ List.Pairwise (· < ·) (procInts lint pos)
    ∧ (∀ x, x ∈ procInts lint pos ↔ x ∈ lint ∧ (pos = true → -1 < x)) := by
  refine ⟨?_, pairwise_procInts lint pos, mem_procInts lint pos⟩
  obtain ⟨hne, hout⟩ := rangeString_ok_iff.mp hok
  have hasc : List.Chain' (· < ·) (procInts lint pos) :=
    List.chain'_iff_pairwise.mpr (pairwise_procInts lint pos)
  obtain ⟨hflat, hgne, hprops, _⟩ := groupRuns_spec hne hasc
  have hdata : out.data = joinSepChars [sepC]
      ((groupRuns (procInts lint pos)).map
        (fun r => (renderRun rng (if exc then 1 else 0) r).data)) := by
    rw [hout, joinSep_data, List.map_map]
    rfl
  have hfree : ∀ p ∈ (groupRuns (procInts lint pos)).map
      (fun r => (renderRun rng (if exc then 1 else 0) r).data), sepC ∉ p := by
    intro p hp hmem
    obtain ⟨r, _, rfl⟩ := List.mem_map.mp hp
    rcases mem_renderRun_data hmem with h | h | h
    · rw [h] at hsd; exact absurd hsd (by simp)
    · exact hsm h
    · exact hsr h
  have hsplit : splitOnChar sepC out.data
      = (groupRuns (procInts lint pos)).map
          (fun r => (renderRun rng (if exc then 1 else 0) r).data) := by
    rw [hdata]
    exact splitOnChar_joinSepChars (by simp [hgne]) hfree
  have homap : oMapM (parseRun rng.data (if exc then 1 else 0))
      (splitOnChar sepC out.data) = some (groupRuns (procInts lint pos)) := by
    rw [hsplit]
    exact oMapM_map_undo (fun r hr =>
      parseRun_renderRun (hprops r hr).2 (hprops r hr).1 hrne
        (headD_isDigit_false hrH))
  simp only [parseBack, homap]
  rw [hflat]

theorem c1_witness :
    parseBack ',' "-".data 0 "1-2,5".data = some (procInts [1, 2, 5] true)
    ∧ List.Pairwise (· < ·) (procInts [1, 2, 5] true)
    ∧ (∀ x, x ∈ procInts [1, 2, 5] true ↔ x ∈ [1, 2, 5] ∧ (true = true → -1 < x)) :=
  c1_roundtrip_amended [1, 2, 5] ',' "-" false true "1-2,5" rfl (by decide)
    (by decide) (by decide) (by decide) (by decide)

/-! ## Lemmas: the `tabulate` primitives -/

theorem eMapM_cons_error {f : α → Except PyErr β} {a : α} {l : List α} {e : PyErr}
    (h : f a = .error e) : eMapM f (a :: l) = .error e := by
  rw [eMapM, h]

theorem eMapM_cons_ok_error {f : α → Except PyErr β} {a : α} {b : β} {l : List α}
    {e : PyErr} (ha : f a = .ok b) (hl : eMapM f l = .error e) :
    eMapM f (a :: l) = .error e := by
  rw [eMapM, ha, hl]

theorem eMapM_cons_ok_ok {f : α → Except PyErr β} {a : α} {b : β} {l : List α}
    {bs : List β} (ha : f a = .ok b) (hl : eMapM f l = .ok bs) :
    eMapM f (a :: l) = .ok (b :: bs) := by
  rw [eMapM, ha, hl]

theorem eMapM_ok_of_all {f : α → Except PyErr β} {l : List α}
    (h : ∀ a ∈ l, ∃ b, f a = .ok b) : ∃ bs, eMapM f l = .ok bs := by
  induction l with
  | nil => exact ⟨[], rfl⟩
  | cons a l ih =>
    obtain ⟨b, hb⟩ := h a (by simp)
    obtain ⟨bs, hbs⟩ := ih (fun x hx => h x (by simp [hx]))
    exact ⟨b :: bs, eMapM_cons_ok_ok hb hbs⟩

theorem eMapM_ok_length {f : α → Except PyErr β} {l : List α} {bs : List β}
    (h : eMapM f l = .ok bs) : bs.length = l.length := by
  induction l generalizing bs with
  | nil =>
    rw [eMapM] at h
    injection h with h
    rw [← h]
    rfl
  | cons a l ih =>
    rw [eMapM] at h
    cases ha : f a with
    | error e => rw [ha] at h; exact absurd h (by simp)
    | ok b =>
      rw [ha] at h
      cases hl : eMapM f l with
      | error e => rw [hl] at h; exact absurd h (by simp)
      | ok bs' =>
        rw [hl] at h
        injection h with h
        rw [← h]
        simp [ih hl]

theorem eMapM_ok_mem {f : α → Except PyErr β} {l : List α} {bs : List β}
    (h : eMapM f l = .ok bs) : ∀ b ∈ bs, ∃ a ∈ l, f a = .ok b := by
  induction l generalizing bs with
  | nil =>
    rw [eMapM] at h
    injection h with h
    rw [← h]
    simp
  | cons a l ih =>
    rw [eMapM] at h
    cases ha : f a with
    | error e => rw [ha] at h; exact absurd h (by simp)
    | ok b0 =>
      rw [ha] at h
      cases hl : eMapM f l with
      | error e => rw [hl] at h; exact absurd h (by simp)
      | ok bs' =>
        rw [hl] at h
        injection h with h
        intro b hb
        rw [← h] at hb
        rcases List.mem_cons.mp hb with hb | hb
        · exact ⟨a, by simp, hb ▸ ha⟩
        · obtain ⟨a', ha', hfa'⟩ := ih hl b hb
          exact ⟨a', by simp [ha'], hfa'⟩

theorem foldl_max_le {l : List Int} {x : Int} : x ≤ l.foldl max x := by
  induction l generalizing x with
  | nil => simp
  | cons y ys ih =>
    rw [List.foldl_cons]
    exact le_trans (le_max_left x y) ih

theorem foldl_max_ge {l : List Int} {x : Int} : ∀ y ∈ l, y ≤ l.foldl max x := by
  induction l generalizing x with
  | nil => simp
  | cons z zs ih =>
    intro y hy
    rw [List.foldl_cons]
    rcases List.mem_cons.mp hy with h | h
    · rw [h]
      exact le_trans (le_max_right x z) foldl_max_le
    · exact ih y h

theorem foldl_max_mem {l : List Int} {x : Int} : l.foldl max x ∈ x :: l := by
  induction l generalizing x with
  | nil => simp
  | cons y ys ih =>
    rw [List.foldl_cons]
    rcases max_choice x y with hm | hm <;> rw [hm]
    · rcases List.mem_cons.mp (ih (x := x)) with h | h
      · simp [h]
      · simp [h]
    · rcases List.mem_cons.mp (ih (x := y)) with h | h
      · simp [h]
      · simp [h]

theorem pyMax_ok_of_ne_nil {l : List Int} (h : l ≠ []) : ∃ m, pyMax l = .ok m := by
  cases l with
  | nil => exact absurd rfl h
  | cons x xs => exact ⟨xs.foldl max x, rfl⟩

theorem pyMax_ok_mem {l : List Int} {m : Int} (h : pyMax l = .ok m) : m ∈ l := by
  cases l with
  | nil => exact absurd h (by simp [pyMax])
  | cons x xs =>
    rw [pyMax] at h
    injection h with h
    exact h ▸ foldl_max_mem

theorem pyMax_ok_ge {l : List Int} {m : Int} (h : pyMax l = .ok m) :
    ∀ x ∈ l, x ≤ m := by
  cases l with
  | nil => exact absurd h (by simp [pyMax])
  | cons x xs =>
    rw [pyMax] at h
    injection h with h
    intro y hy
    rcases List.mem_cons.mp hy with h' | h'
    · exact h ▸ h' ▸ foldl_max_le
    · exact h ▸ foldl_max_ge y h'

theorem pyGet_ok_of_lt {l : List α} {i : Nat} (h : i < l.length) :
    ∃ a, pyGet l i = .ok a := by
  rw [pyGet]
  cases hg : l.get? i with
  | none => rw [List.get?_eq_none] at hg; omega
  | some a => exact ⟨a, rfl⟩

theorem pyWrap_ok {t : String} {w : Int} (h : 0 < w) :
    ∃ ls, pyWrap t w = .ok ls := by
  rw [pyWrap, if_neg (by omega)]
  cases (splitWordsGo [] t.data).flatMap (chunks w.toNat) with
  | nil => exact ⟨[], rfl⟩
  | cons x rest => exact ⟨_, rfl⟩

theorem enumFromN_length (n : Nat) (l : List α) : (enumFromN n l).length = l.length := by
  induction l generalizing n with
  | nil => rfl
  | cons a l ih => simp [enumFromN, ih]

theorem mem_enumFromN {n : Nat} {l : List α} {p : Nat × α}
    (h : p ∈ enumFromN n l) : p.2 ∈ l ∧ n ≤ p.1 ∧ p.1 < n + l.length := by
  induction l generalizing n with
  | nil => simp [enumFromN] at h
  | cons a l ih =>
    rw [enumFromN] at h
    rcases List.mem_cons.mp h with h | h
    · subst h
      simp
    · obtain ⟨h1, h2, h3⟩ := ih h
      refine ⟨by simp [h1], by omega, by simp; omega⟩

theorem minLen_eq_of_all {c : List α} {cs : List (List α)} {R : Nat}
    (hc : c.length = R) (hcs : ∀ x ∈ cs, x.length = R) : minLen c cs = R := by
  rw [minLen, hc]
  induction cs with
  | nil => rfl
  | cons x cs ih =>
    rw [List.foldl_cons, hcs x (by simp), min_self]
    exact ih (fun y hy => hcs y (by simp [hy]))

theorem pyZipN_length [Inhabited α] (c : List α) (cs : List (List α)) :
    (pyZipN (c :: cs)).length = minLen c cs := by
  rw [pyZipN, List.length_map, natsFrom_length]

theorem mem_pyZipN [Inhabited α] {c : List α} {cs : List (List α)}
    {r : List α} (h : r ∈ pyZipN (c :: cs)) :
    ∃ j, r = (c :: cs).map (fun col => col.getD j default) := by
  rw [pyZipN] at h
  obtain ⟨j, _, hj⟩ := List.mem_map.mp h
  exact ⟨j, hj.symm⟩

theorem pyZipN_cons [Inhabited α] {c : List α} {cs : List (List α)} {n : Nat}
    (h : minLen c cs = n + 1) :
    pyZipN (c :: cs) = ((c :: cs).map (fun col => col.getD 0 default))
      :: (natsFrom 1 n).map (fun j => (c :: cs).map (fun col => col.getD j default)) := by
  rw [pyZipN, h, natsFrom, List.map_cons]

theorem pyMax_maxLenI {col : List String} (h : col ≠ []) :
    pyMax (col.map (fun s => (s.data.length : Int))) = .ok (maxLenI col) := by
  cases col with
  | nil => exact absurd rfl h
  | cons s ss => rfl

theorem tabWidths_cons (col0 : List String) (cs : List (List String))
    (wd : Int) (sp : Nat) (h : col0 ≠ []) :
    tabWidths (col0 :: cs) wd sp
      = .ok [maxLenI col0, wd - maxLenI col0 - (sp : Int)] := by
  simp only [tabWidths, show pyGet (col0 :: cs) 0 = .ok col0 from rfl,
    pyMax_maxLenI h]

/-! ## Claims C6 and C4 -/

/-- C6 counterexample: with three columns (first-column width 2), total
width 79 and spacing 2, the second width bucket is 75 = 79 − 2 − 2·1, not
79 − 2 − 2·3 = 71 as the claimed formula (spacing times the number of
columns) requires. -/
theorem c6_counterexample :
    tabWidths [["aa"], ["b"], ["c"]] 79 2 = .ok [2, 75]
    ∧ (75 : Int) ≠ 79 - 2 - 2 * 3 :=
  ⟨rfl, by decide⟩

/-- C6 (amended): the width allotted to all columns other than column 0
combined equals the total width minus the first column's width minus the
spacing taken once (`len(widths)` is 1 at the moment the second width is
appended), whatever the number of columns. -/
theorem c6_remaining_width (col0 : List String) (cs : List (List String))
    (wd : Int) (sp : Nat) (h : col0 ≠ []) :
    tabWidths (col0 :: cs) wd sp
      = .ok [maxLenI col0, wd - maxLenI col0 - 1 * (sp : Int)] := by
  rw [one_mul]
  exact tabWidths_cons col0 cs wd sp h

theorem c6_witness :
    tabWidths [["aa"], ["b"], ["c"]] 79 2
      = .ok [maxLenI ["aa"], 79 - maxLenI ["aa"] - 1 * (2 : Int)] :=
  c6_remaining_width ["aa"] [["b"], ["c"]] 79 2 (by decide)

theorem rowCells_two_cols {w0 w1 : Int} {x y : String} (hw1 : 0 < w1) :
    ∃ cells, rowCells [w0, w1] [x, y] = .ok cells
      ∧ cells.length = 2 ∧ cells ≠ [] := by
  obtain ⟨ls, hls⟩ := pyWrap_ok (t := y) hw1
  refine ⟨[[pyLjust x w0], ls], ?_, rfl, by simp⟩
  show eMapM _ ((0, x) :: (1, y) :: []) = _
  exact eMapM_cons_ok_ok rfl (eMapM_cons_ok_ok hls rfl)

theorem padRow_ok {widths : List Int} {cells : List (List String)}
    (hne : cells ≠ []) (hlen : cells.length ≤ widths.length) :
    ∃ padded, padRow widths cells = .ok padded
      ∧ padded.length = cells.length := by
  obtain ⟨m, hm⟩ := pyMax_ok_of_ne_nil
    (l := cells.map fun r => (r.length : Int)) (by simp [hne])
  by_cases hgt : m > 1
  · have hall : ∀ p ∈ enumFromN 0 cells, ∃ b,
        (fun p => match pyGet widths p.1 with
          | .error e => Except.error e
          | .ok w => .ok (p.2 ++ List.replicate (m - (p.2.length : Int)).toNat
              (charRun ' ' w))) p = Except.ok b := by
      intro p hp
      obtain ⟨_, _, h3⟩ := mem_enumFromN hp
      obtain ⟨w, hw⟩ := pyGet_ok_of_lt (l := widths) (i := p.1) (by omega)
      simp only [hw]
      exact ⟨_, rfl⟩
    obtain ⟨bs, hbs⟩ := eMapM_ok_of_all hall
    refine ⟨bs, ?_, ?_⟩
    · simp only [padRow, hm, if_pos hgt]
      exact hbs
    · rw [eMapM_ok_length hbs, enumFromN_length]
  · refine ⟨cells, ?_, rfl⟩
    simp only [padRow, hm, if_neg hgt]

theorem tabulateRow_ok_two {w0 w1 : Int} {sp x y : String} (hw1 : 0 < w1) :
    ∃ lines, tabulateRow [w0, w1] sp [x, y] = .ok lines := by
  obtain ⟨cells, hcells, hclen, hcne⟩ := @rowCells_two_cols w0 w1 x y hw1
  obtain ⟨padded, hpad, _⟩ := @padRow_ok [w0, w1] cells hcne (by simp [hclen])
  have h : tabulateRow [w0, w1] sp [x, y]
      = .ok ((pyZipN padded).map (joinSep sp)) := by
    simp only [tabulateRow, hcells, hpad]
  exact ⟨_, h⟩

theorem tabulateLines_ok {cols : List (List String)} {widths : List Int}
    (header : Bool) {wd : Int} {sp : Nat}
    (hw : tabWidths cols wd sp = .ok widths)
    (hrows : ∀ r ∈ pyZipN cols, ∃ ls,
      tabulateRow widths (charRun ' ' (sp : Int)) r = .ok ls)
    (hne : pyZipN cols ≠ []) :
    ∃ lines, tabulateLines cols header wd sp = .ok lines := by
  have hall : ∀ p ∈ enumFromN 0 (pyZipN cols), ∃ b,
      (fun p => match tabulateRow widths (charRun ' ' (sp : Int)) p.2 with
        | .error e => Except.error e
        | .ok ls => .ok (if p.1 = 0 ∧ header then ls ++ [tabBars widths sp]
            else ls)) p = Except.ok b := by
    intro p hp
    obtain ⟨ls, hls⟩ := hrows p.2 (mem_enumFromN hp).1
    simp only [hls]
    exact ⟨_, rfl⟩
  obtain ⟨body, hbody⟩ := eMapM_ok_of_all hall
  cases hz : pyZipN cols with
  | nil => exact absurd hz hne
  | cons r0 rest =>
    rw [hz] at hbody
    by_cases hgt : rest.length > 1
    · have h : tabulateLines cols header wd sp
          = .ok (tabBars widths sp :: body.flatten ++ [tabBars widths sp]) := by
        simp only [tabulateLines, hw, hz, hbody, List.length_cons, if_pos hgt]
      exact ⟨_, h⟩
    · have h : tabulateLines cols header wd sp
          = .ok (tabBars widths sp :: body.flatten) := by
        simp only [tabulateLines, hw, hz, hbody, List.length_cons, if_neg hgt]
      exact ⟨_, h⟩

/-- C4 counterexample: two columns of unequal length (2 cells and 1 cell)
do not raise any error: `tabulate` silently returns a table truncated to
the single common row. -/
theorem c4_counterexample :
    tabulate [["a", "c"], ["b"]] true 79 2
      = .ok (joinSep "\n" [joinSep "  " ["=", charRun '=' 76], "a  b",
          joinSep "  " ["=", charRun '=' 76]]) := rfl

/-- C4 (amended): `tabulate` performs no column-length check at all: for
two non-empty columns of unequal length (with a positive wrap width) it
succeeds, iterating only over `zip`-truncated rows — the number of logical
rows is the minimum of the column lengths. -/
theorem c4_no_mismatch_error (c1 c2 : List String) (header : Bool) (wd : Int)
    (sp : Nat) (h1 : c1 ≠ []) (h2 : c2 ≠ []) (hlen : c1.length ≠ c2.length)
    (hw1 : 0 < wd - maxLenI c1 - (sp : Int)) :
    (∃ out, tabulate [c1, c2] header wd sp = .ok out)
    ∧ (pyZipN [c1, c2]).length = min c1.length c2.length := by
  have hw := tabWidths_cons c1 [c2] wd sp h1
  have hrows : ∀ r ∈ pyZipN [c1, c2], ∃ ls,
      tabulateRow [maxLenI c1, wd - maxLenI c1 - (sp : Int)]
        (charRun ' ' (sp : Int)) r = .ok ls := by
    intro r hr
    obtain ⟨j, hj⟩ := mem_pyZipN hr
    rw [hj]
    exact tabulateRow_ok_two hw1
  have hlen2 : (pyZipN [c1, c2]).length = min c1.length c2.length := by
    rw [pyZipN_length]
    rfl
  have hne : pyZipN [c1, c2] ≠ [] := by
    intro h
    rw [h] at hlen2
    have hp1 : 0 < c1.length := List.length_pos.mpr h1
    have hp2 : 0 < c2.length := List.length_pos.mpr h2
    simp at hlen2
    omega
  obtain ⟨lines, hlines⟩ := tabulateLines_ok header hw hrows hne
  exact ⟨⟨joinSep "\n" lines, by simp only [tabulate, hlines]⟩, hlen2⟩

theorem c4_witness :
    (∃ out, tabulate [["a", "c"], ["b"]] true 79 2 = .ok out)
    ∧ (pyZipN [["a", "c"], ["b"]]).length
        = min (["a", "c"] : List String).length (["b"] : List String).length :=
  c4_no_mismatch_error ["a", "c"] ["b"] true 79 2 (by decide) (by decide)
    (by decide) (by decide)

/-! ## Claim C5: borders -/

theorem tabulateLines_shape {cols : List (List String)} {header : Bool}
    {wd : Int} {sp : Nat} {ls : List String}
    (h : tabulateLines cols header wd sp = .ok ls) :
    ∃ widths body, tabWidths cols wd sp = .ok widths
      ∧ ls = tabBars widths sp :: body
          ++ (if 3 ≤ (pyZipN cols).length then [tabBars widths sp] else []) := by
  cases hw : tabWidths cols wd sp with
  | error e =>
    have : tabulateLines cols header wd sp = .error e := by
      simp only [tabulateLines, hw]
    rw [this] at h
    exact absurd h (by simp)
  | ok widths =>
    cases hz : pyZipN cols with
    | nil =>
      have : tabulateLines cols header wd sp = .error .nameError := by
        simp only [tabulateLines, hw, hz, enumFromN, eMapM, List.length_nil]
      rw [this] at h
      exact absurd h (by simp)
    | cons r0 rest =>
      cases hB : eMapM (fun p =>
          match tabulateRow widths (charRun ' ' (sp : Int)) p.2 with
          | .error e => Except.error e
          | .ok ls => .ok (if p.1 = 0 ∧ header then ls ++ [tabBars widths sp]
              else ls)) (enumFromN 0 (r0 :: rest)) with
      | error e =>
        have : tabulateLines cols header wd sp = .error e := by
          simp only [tabulateLines, hw, hz, hB]
        rw [this] at h
        exact absurd h (by simp)
      | ok body =>
        by_cases hgt : rest.length > 1
        · have hval : tabulateLines cols header wd sp
              = .ok (tabBars widths sp :: body.flatten ++ [tabBars widths sp]) := by
            simp only [tabulateLines, hw, hz, hB, List.length_cons, if_pos hgt]
          rw [hval] at h
          injection h with h
          refine ⟨widths, body.flatten, rfl, ?_⟩
          rw [← h]
          have h3 : 3 ≤ (r0 :: rest).length := by simp; omega
          rw [if_pos h3]
        · have hval : tabulateLines cols header wd sp
              = .ok (tabBars widths sp :: body.flatten) := by
            simp only [tabulateLines, hw, hz, hB, List.length_cons, if_neg hgt]
          rw [hval] at h
          injection h with h
          refine ⟨widths, body.flatten, rfl, ?_⟩
          rw [← h]
          have h3 : ¬ 3 ≤ (r0 :: rest).length := by simp; omega
          rw [if_neg h3]
          simp

theorem joinSep_data_head {s x : String} {rest : List String} :
    ∃ t, (joinSep s (x :: rest)).data = x.data ++ t := by
  cases rest with
  | nil => exact ⟨[], by simp [joinSep]⟩
  | cons y r =>
    refine ⟨s.data ++ (joinSep s (y :: r)).data, ?_⟩
    show (x ++ s ++ joinSep s (y :: r)).data = _
    rw [String.data_append, String.data_append, List.append_assoc]

/-- C5 (amended): every successful output starts with the top border; a
trailing border line is appended exactly when at least three logical rows
exist (with the default header row, more than one data row); and a single
short row without a header produces exactly the top border and one data
line, with no trailing border. -/
theorem c5_border_rules :
    (∀ (cols : List (List String)) (header : Bool) (wd : Int) (sp : Nat)
        (out : String),
      tabulate cols header wd sp = .ok out →
      ∃ widths t, tabWidths cols wd sp = .ok widths
        ∧ out.data = (tabBars widths sp).data ++ t)
    ∧ (∀ (cols : List (List String)) (header : Bool) (wd : Int) (sp : Nat)
        (ls : List String),
      tabulateLines cols header wd sp = .ok ls →
      ∃ widths body, tabWidths cols wd sp = .ok widths
        ∧ ls = tabBars widths sp :: body
            ++ (if 3 ≤ (pyZipN cols).length then [tabBars widths sp] else []))
    ∧ tabulateLines [["a"], ["b"]] false 79 2
        = .ok [joinSep "  " ["=", charRun '=' 76], "a  b"] := by
  refine ⟨?_, fun _ _ _ _ _ h => tabulateLines_shape h, rfl⟩
  intro cols header wd sp out hout
  cases hl : tabulateLines cols header wd sp with
  | error e =>
    have : tabulate cols header wd sp = .error e := by
      simp only [tabulate, hl]
    rw [this] at hout
    exact absurd hout (by simp)
  | ok ls =>
    have hval : tabulate cols header wd sp = .ok (joinSep "\n" ls) := by
      simp only [tabulate, hl]
    rw [hval] at hout
    injection hout with hout
    obtain ⟨widths, body, hw, hshape⟩ := tabulateLines_shape hl
    rw [hshape] at hout
    obtain ⟨t, ht⟩ := @joinSep_data_head "\n" (tabBars widths sp)
      (body ++ (if 3 ≤ (pyZipN cols).length then [tabBars widths sp] else []))
    refine ⟨widths, t, hw, ?_⟩
    rw [← hout]
    exact ht

theorem c5_counterexample :
    tabulateLines [["a", "c"], ["b", "d"]] false 79 2
      = .ok [joinSep "  " ["=", charRun '=' 76], "a  b", "c  d"]
    ∧ ("c  d" : String) ≠ joinSep "  " ["=", charRun '=' 76]
    ∧ 1 < (pyZipN ([["a", "c"], ["b", "d"]] : List (List String))).length :=
  ⟨rfl, by decide, by decide⟩

theorem c5_witness :
    (∃ widths t, tabWidths [["a"], ["b"]] 79 2 = .ok widths
      ∧ (joinSep "\n" [joinSep "  " ["=", charRun '=' 76], "a  b"]).data
          = (tabBars widths 2).data ++ t)
    ∧ (∃ widths body, tabWidths [["a"], ["b"]] 79 2 = .ok widths
      ∧ [joinSep "  " ["=", charRun '=' 76], "a  b"]
          = tabBars widths 2 :: body
            ++ (if 3 ≤ (pyZipN ([["a"], ["b"]] : List (List String))).length
                then [tabBars widths 2] else [])) :=
  ⟨c5_border_rules.1 [["a"], ["b"]] false 79 2
      (joinSep "\n" [joinSep "  " ["=", charRun '=' 76], "a  b"]) rfl,
    c5_border_rules.2.1 [["a"], ["b"]] false 79 2
      [joinSep "  " ["=", charRun '=' 76], "a  b"] rfl⟩

/-! ## Claim C7: the padding law -/

theorem c7_counterexample :
    rowCells [1, 76] ["a", ""] = .ok [["a"], []]
    ∧ tabulateRow [1, 76] "  " ["a", ""] = .ok []
    ∧ tabulateLines [["a"], [""]] false 79 2
        = .ok [joinSep "  " ["=", charRun '=' 76]] :=
  ⟨rfl, rfl, rfl⟩

/-- C7 (amended): whenever the maximum line count of a logical row is at
least 2, or every cell of the row wraps to at least one line, all columns
are padded to exactly the same number of physical lines (the maximum); a
cell wrapping to zero lines contributes blank lines in the former case, but
when the maximum is 1 the zipping step instead drops the whole row. -/
theorem c7_padding_law (widths : List Int) (sp : String) (items : List String)
    (cells padded : List (List String)) (m : Int)
    (hcells : rowCells widths items = .ok cells)
    (hmax : pyMax (cells.map (fun r => (r.length : Int))) = .ok m)
    (hpad : padRow widths cells = .ok padded)
    (hcase : 2 ≤ m ∨ ∀ c ∈ cells, c ≠ []) :
    (∀ r ∈ padded, (r.length : Int) = m)
    ∧ tabulateRow widths sp items = .ok ((pyZipN padded).map (joinSep sp)) := by
  refine ⟨?_, by simp only [tabulateRow, hcells, hpad]⟩
  by_cases hgt : m > 1
  · simp only [padRow, hmax] at hpad
    rw [if_pos hgt] at hpad
    intro r hr
    obtain ⟨p, hp, hfp⟩ := eMapM_ok_mem hpad r hr
    cases hg : pyGet widths p.1 with
    | error e =>
      rw [hg] at hfp
      exact absurd hfp (by simp)
    | ok w =>
      rw [hg] at hfp
      injection hfp with hfp
      have hle : (p.2.length : Int) ≤ m :=
        pyMax_ok_ge hmax _ (List.mem_map_of_mem _ (mem_enumFromN hp).1)
      rw [← hfp]
      rw [List.length_append, List.length_replicate]
      have htn : ((m - (p.2.length : Int)).toNat : Int) = m - (p.2.length : Int) :=
        Int.toNat_of_nonneg (by omega)
      push_cast
      omega
  · have hpc : padded = cells := by
      simp only [padRow, hmax] at hpad
      have h2 : (if m > 1 then
          eMapM (fun p =>
            match pyGet widths p.1 with
            | Except.error e => Except.error e
            | Except.ok w => Except.ok (p.2 ++ List.replicate
                (m - (p.2.length : Int)).toNat (charRun ' ' w)))
            (enumFromN 0 cells)
        else Except.ok cells) = Except.ok padded := hpad
      rw [if_neg hgt] at h2
      injection h2 with h2
      exact h2.symm
    rcases hcase with hm2 | hall
    · omega
    · intro r hr
      rw [hpc] at hr
      have h1 : 1 ≤ r.length := by
        have := hall r hr
        cases r with
        | nil => exact absurd rfl this
        | cons a l => simp
      have hle : (r.length : Int) ≤ m := pyMax_ok_ge hmax _ (List.mem_map_of_mem _ hr)
      obtain ⟨c, hc, hcm⟩ : ∃ c ∈ cells, (c.length : Int) = m := by
        obtain ⟨y, hy, hym⟩ := List.mem_map.mp (pyMax_ok_mem hmax)
        exact ⟨y, hy, hym⟩
      have hc1 : 1 ≤ c.length := by
        have := hall c hc
        cases c with
        | nil => exact absurd rfl this
        | cons a l => simp
      omega

theorem c7_witness :
    (∀ r ∈ ([["a"], ["bb"]] : List (List String)), (r.length : Int) = 1)
    ∧ tabulateRow [1, 76] "  " ["a", "bb"]
        = .ok ((pyZipN ([["a"], ["bb"]] : List (List String))).map (joinSep "  ")) :=
  c7_padding_law [1, 76] "  " ["a", "bb"] [["a"], ["bb"]] [["a"], ["bb"]] 1
    rfl rfl rfl (Or.inr (by decide))

/-! ## Claim C10: only two widths are ever computed -/

theorem rowCells_three {w0 w1 : Int} {x1 x2 x3 : String} {xs : List String} :
    (0 < w1 → rowCells [w0, w1] (x1 :: x2 :: x3 :: xs) = .error .indexError)
    ∧ ∃ e, rowCells [w0, w1] (x1 :: x2 :: x3 :: xs) = .error e := by
  have htail : ∀ b : List String,
      eMapM (fun p => if p.1 = 0 then
          match pyGet ([w0, w1] : List Int) 0 with
          | .error e => Except.error e
          | .ok w => .ok [pyLjust p.2 w]
        else
          match pyGet ([w0, w1] : List Int) p.1 with
          | .error e => Except.error e
          | .ok w => pyWrap p.2 w)
        ((2, x3) :: enumFromN 3 xs) = .error .indexError :=
    fun b => eMapM_cons_error rfl
  have hpos : 0 < w1 → rowCells [w0, w1] (x1 :: x2 :: x3 :: xs)
      = .error .indexError := by
    intro hw1
    obtain ⟨ls, hls⟩ := pyWrap_ok (t := x2) hw1
    show eMapM _ ((0, x1) :: (1, x2) :: (2, x3) :: enumFromN 3 xs) = _
    exact eMapM_cons_ok_error rfl (eMapM_cons_ok_error hls (htail []))
  refine ⟨hpos, ?_⟩
  by_cases hw1 : 0 < w1
  · exact ⟨.indexError, hpos hw1⟩
  · have hwrap : pyWrap x2 w1 = .error .valueError := by
      rw [pyWrap, if_pos (by omega)]
    refine ⟨.valueError, ?_⟩
    show eMapM _ ((0, x1) :: (1, x2) :: (2, x3) :: enumFromN 3 xs) = _
    exact eMapM_cons_ok_error rfl (eMapM_cons_error hwrap)

theorem tabulateRow_err {widths : List Int} {sp : String} {items : List String}
    {e : PyErr} (h : rowCells widths items = .error e) :
    tabulateRow widths sp items = .error e := by
  simp only [tabulateRow, h]

theorem tabulateLines_err_row0 {cols : List (List String)} {widths : List Int}
    (header : Bool) {wd : Int} {sp : Nat} {row0 : List String}
    {rows' : List (List String)} {e : PyErr}
    (hw : tabWidths cols wd sp = .ok widths)
    (hz : pyZipN cols = row0 :: rows')
    (hr : tabulateRow widths (charRun ' ' (sp : Int)) row0 = .error e) :
    tabulateLines cols header wd sp = .error e := by
  have hB : eMapM (fun p =>
      match tabulateRow widths (charRun ' ' (sp : Int)) p.2 with
      | .error e => Except.error e
      | .ok ls => .ok (if p.1 = 0 ∧ header then ls ++ [tabBars widths sp]
          else ls)) (enumFromN 0 (row0 :: rows')) = .error e := by
    apply eMapM_cons_error
    simp only [hr]
  simp only [tabulateLines, hw, hz, hB]

/-- C10: `tabulate` computes exactly two column widths whatever the number
of columns; with three or more equal-length non-empty columns the first row
already fails (with the `IndexError` of the out-of-range `widths[2]` access
as soon as the second column's wrap width is positive), so only one- and
two-column inputs can succeed. -/
theorem c10_two_widths_only :
    (∀ (cols : List (List String)) (wd : Int) (sp : Nat) (ws : List Int),
      tabWidths cols wd sp = .ok ws → ws.length = 2)
    ∧ (∀ (c1 c2 c3 : List String) (cs : List (List String)) (header : Bool)
        (wd : Int) (sp : Nat) (R : Nat),
        (∀ c ∈ c1 :: c2 :: c3 :: cs, c.length = R) → 1 ≤ R →
        (∃ e, tabulate (c1 :: c2 :: c3 :: cs) header wd sp = .error e)
        ∧ (0 < wd - maxLenI c1 - (sp : Int) →
            tabulate (c1 :: c2 :: c3 :: cs) header wd sp
              = .error .indexError)) := by
  constructor
  · intro cols wd sp ws hws
    rw [tabWidths] at hws
    cases hg : pyGet cols 0 with
    | error e =>
      simp only [hg] at hws
      exact absurd hws (by simp)
    | ok col0 =>
      simp only [hg] at hws
      cases hm : pyMax (col0.map fun s => (s.data.length : Int)) with
      | error e =>
        simp only [hm] at hws
        exact absurd hws (by simp)
      | ok w0 =>
        simp only [hm] at hws
        injection hws with hws
        rw [← hws]
        rfl
  · intro c1 c2 c3 cs header wd sp R hall hR
    have hc1 : c1 ≠ [] := by
      intro h
      have := hall c1 (by simp)
      rw [h] at this
      simp at this
      omega
    have hw := tabWidths_cons c1 (c2 :: c3 :: cs) wd sp hc1
    have hmin : minLen c1 (c2 :: c3 :: cs) = R :=
      minLen_eq_of_all (hall c1 (by simp))
        (fun x hx => hall x (by simp at hx; rcases hx with h | h | h <;> simp [h]))
    obtain ⟨R', hR'⟩ : ∃ R', R = R' + 1 := ⟨R - 1, by omega⟩
    have hz := @pyZipN_cons String _ c1 (c2 :: c3 :: cs) R' (by rw [hmin, hR'])
    have hrow0 : ((c1 :: c2 :: c3 :: cs).map
        (fun col => col.getD 0 default) : List String)
        = c1.getD 0 default :: c2.getD 0 default :: c3.getD 0 default
            :: cs.map (fun col => col.getD 0 default) := rfl
    rw [hrow0] at hz
    constructor
    · obtain ⟨e, he⟩ := (@rowCells_three (maxLenI c1)
        (wd - maxLenI c1 - (sp : Int)) (c1.getD 0 default)
        (c2.getD 0 default) (c3.getD 0 default)
        (cs.map (fun col => col.getD 0 default))).2
      have hlines := tabulateLines_err_row0 header hw hz
        (tabulateRow_err he)
      exact ⟨e, by simp only [tabulate, hlines]⟩
    · intro hw1
      have he := (@rowCells_three (maxLenI c1)
        (wd - maxLenI c1 - (sp : Int)) (c1.getD 0 default)
        (c2.getD 0 default) (c3.getD 0 default)
        (cs.map (fun col => col.getD 0 default))).1 hw1
      have hlines := tabulateLines_err_row0 header hw hz
        (tabulateRow_err he)
      simp only [tabulate, hlines]

theorem c10_witness :
    (∃ e, tabulate [["a"], ["b"], ["c"]] true 79 2 = .error e)
    ∧ (0 < 79 - maxLenI ["a"] - (2 : Int) →
        tabulate [["a"], ["b"], ["c"]] true 79 2 = .error .indexError) :=
  c10_two_widths_only.2 ["a"] ["b"] ["c"] [] true 79 2 1 (by decide) (by decide)
